import Mathlib

/-!
Shallow embedding of the GitHub VCS integration layer of the repository
(`server/events/vcs/github.go`-style client, `github_credentials.go`,
`github_app_controller.go`).  Network calls are abstracted as oracle
inputs (`Except`-valued results of each HTTP round trip); all branching,
parsing and accumulation logic is translated directly from the Go source.
-/

namespace Atlantis

/-- Abstract error payload for failed platform/API calls (Go `error`).
We keep the message text so wrapping (`errors.Wrap`) stays visible. -/
abbrev ApiErr := String

/-- `errors.Wrap(err, msg)` produces an error whose message is
`msg ++ ": " ++ err`. -/
def wrapErr (msg : String) (e : ApiErr) : ApiErr := msg ++ ": " ++ e

/-! ## Installation resolution (`getInstallationID`,
`github_credentials.go` lines 38-63 and part_000 lines 68-88)

The two HTTP steps (building the app transport, issuing the identity
request) are oracle inputs; the base-10 conversion of the textual id —
Go's `strconv.ParseInt(app.ID, 10, 64)` — is modelled exactly. -/

/-- The error kinds of `strconv.ParseInt`: `ErrSyntax` and `ErrRange`. -/
inductive ParseIntError where
  | invalidSyntax
  | outOfRange
deriving Repr, DecidableEq

/-- The accumulation loop of `strconv.ParseUint` for base 10:
left-to-right over the characters, only '0'..'9' are digits
(`ErrSyntax` otherwise), `n = n*10 + d`, aborting with `ErrRange` as
soon as the value would exceed `maxVal`. -/
def parseUintLoop (maxVal : Nat) : List Char → Nat → Except ParseIntError Nat
  | [], n => .ok n
  | c :: rest, n =>
    if c.isDigit then
      let d := c.toNat - '0'.toNat
      if maxVal < n * 10 + d then .error .outOfRange
      else parseUintLoop maxVal rest (n * 10 + d)
    else .error .invalidSyntax

/-- `strconv.ParseUint` for base 10: empty input is a syntax error,
otherwise the digit loop runs from 0. -/
def parseUint (s : List Char) (maxVal : Nat) : Except ParseIntError Nat :=
  if s = [] then .error .invalidSyntax
  else parseUintLoop maxVal s 0

/-- The sign handling of `strconv.ParseInt`: a leading '+' or '-' is
consumed, recording negativity. -/
def signSplit (s : List Char) : Bool × List Char :=
  match s with
  | '+' :: rest => (false, rest)
  | '-' :: rest => (true, rest)
  | _ => (false, s)

/-- `strconv.ParseInt(s, 10, 64)` up to the returned error: empty input
is a syntax error; after the sign, the digits are parsed as an unsigned
value bounded by `2^64 - 1`, and the signed cutoff `2^63` is enforced
(`un ≥ cutoff` positive, `un > cutoff` negative, both `ErrRange`). -/
def parseInt64 (s : List Char) : Except ParseIntError Int :=
  if s = [] then .error .invalidSyntax
  else
    let neg := (signSplit s).1
    -- maxVal = 2^64 - 1, cutoff = 2^63
    match parseUint (signSplit s).2 18446744073709551615 with
    | .error e => .error e
    | .ok un =>
      if neg = false ∧ 9223372036854775808 ≤ un then .error .outOfRange
      else if neg = true ∧ 9223372036854775808 < un then .error .outOfRange
      else .ok (if neg then -(un : Int) else (un : Int))

/-- The spec-side reading of "parseable as a base-10 integer": an
optional sign followed by at least one decimal digit, denoting a value
within the signed 64-bit range; `none` when not parseable. -/
def int64LiteralValue (s : List Char) : Option Int :=
  let neg := (signSplit s).1
  let ds := (signSplit s).2
  if ds = [] then none
  else if ds.all Char.isDigit then
    let v : Nat := ds.foldl (fun acc c => acc * 10 + (c.toNat - '0'.toNat)) 0
    let i : Int := if neg then -(v : Int) else (v : Int)
    if -9223372036854775808 ≤ i ∧ i ≤ 9223372036854775807 then some i
    else none
  else none

/-- The `AuthError` taxonomy of an application-credential derivation:
each failure site of `getInstallationID`/`Client`. -/
inductive AuthError where
  | appTransportInit (e : ApiErr)
  | requestInit (e : ApiErr)
  | httpCall (e : ApiErr)
  | idParse (e : ParseIntError)
  | keyInit (e : ApiErr)
deriving Repr, DecidableEq

/-- `GithubAppCredentials.getInstallationID`: build the app JWT
transport, build the GET request, run it to obtain the textual id, then
convert it with `strconv.ParseInt(id, 10, 64)`; the first failure
aborts. -/
def getInstallationID (appTransport : Except ApiErr Unit)
    (request : Except ApiErr Unit) (doCall : Except ApiErr String) :
    Except AuthError Int :=
  match appTransport with
  | .error e => .error (.appTransportInit e)
  | .ok _ =>
    match request with
    | .error e => .error (.requestInit e)
    | .ok _ =>
      match doCall with
      | .error e => .error (.httpCall e)
      | .ok idString =>
        match parseInt64 idString.toList with
        | .error e => .error (.idParse e)
        | .ok id => .ok id

/-! ## Application-credential transport derivation
(`GithubAppCredentials.Client`: part_000 lines 90-104 panics,
`github_credentials.go` lines 65-79 returns the error) -/

/-- Outcome of a Go call that may abort the process. -/
inductive PanicOr (α : Type) where
  | ok (a : α)
  | panicked (e : AuthError)
deriving Repr, DecidableEq

/-- `GithubAppCredentials.Client` of part_000 (lines 90-104): resolve
the installation id and build the installation transport, passing any
failure to `panic`. -/
def appCredentialsClientPanicking {α : Type}
    (appTransport : Except ApiErr Unit) (request : Except ApiErr Unit)
    (doCall : Except ApiErr String)
    (newKeyFromFile : Int → Except ApiErr α) : PanicOr α :=
  match getInstallationID appTransport request doCall with
  | .error e => .panicked e
  | .ok installationID =>
    match newKeyFromFile installationID with
    | .error e => .panicked (.keyInit e)
    | .ok itr => .ok itr

/-- `GithubAppCredentials.Client` of `github_credentials.go` (lines
65-79): the same derivation, returning every failure to the caller as a
normal result. -/
def appCredentialsClient {α : Type}
    (appTransport : Except ApiErr Unit) (request : Except ApiErr Unit)
    (doCall : Except ApiErr String)
    (newKeyFromFile : Int → Except ApiErr α) : Except AuthError α :=
  match getInstallationID appTransport request doCall with
  | .error e => .error e
  | .ok installationID =>
    match newKeyFromFile installationID with
    | .error e => .error (.keyInit e)
    | .ok itr => .ok itr

/-! ## App-manifest code exchange (`GithubAppController.ExchangeCode`,
`github_app_controller.go` lines 59-110) -/

/-- The decoded app-conversion payload (`id`, `pem`, `webhook_secret`,
`name`). -/
structure AppCreds where
  id : Int
  key : String
  webhookSecret : String
  name : String
deriving Repr, DecidableEq

/-- One response written through `g.respond` (each call performs exactly
one `WriteHeader` plus body write on the same `http.ResponseWriter`). -/
inductive ControllerResponse where
  | alreadySetup
  | ignoringCallback
  | requestCreationError (e : ApiErr)
  | exchangeError (e : ApiErr)
  | platformError (status : Nat)
  | success (creds : AppCreds)
deriving Repr, DecidableEq

/-- The exchange attempt of `ExchangeCode` after the code check: build
the POST request for `url`, run it, and respond according to the error,
the platform status code (`≥ 400`), or the decoded credentials. -/
def exchangeAttempt (url : String)
    (newRequest : String → Except ApiErr Unit)
    (doCall : String → Except ApiErr (Nat × AppCreds)) : ControllerResponse :=
  match newRequest url with
  | .error e => .requestCreationError e
  | .ok _ =>
    match doCall url with
    | .error e => .exchangeError e
    | .ok (status, app) =>
      if 400 ≤ status then .platformError status
      else .success app

/-- `GithubAppController.ExchangeCode` as the sequence of responses it
writes: reject when setup is complete; write the "Ignoring callback"
response when the "code" query parameter is empty (without returning);
then attempt the exchange against `/app-manifests/{code}/conversions`
and write its response. -/
def exchangeCode (setupComplete : Bool) (codeParam : String)
    (newRequest : String → Except ApiErr Unit)
    (doCall : String → Except ApiErr (Nat × AppCreds)) :
    List ControllerResponse :=
  if setupComplete then [.alreadySetup]
  else
    (if codeParam = "" then [.ignoringCallback] else []) ++
      [exchangeAttempt ("/app-manifests/" ++ codeParam ++ "/conversions")
        newRequest doCall]

/-! ## Repository and pull-request data (fields used by the client) -/

/-- The slice of `github.Repository` used by `MergePull`: the three
merge-method allow flags (`GetAllowMergeCommit` etc., `false` when the
field is nil). -/
structure GoRepo where
  allowMergeCommit : Bool
  allowRebaseMerge : Bool
  allowSquashMerge : Bool
deriving Repr, DecidableEq

/-- The slice of `github.PullRequest` used by `PullIsMergeable`:
`GetMergeableState` (empty string when the field is nil). -/
structure GoPullRequest where
  mergeableState : String
deriving Repr, DecidableEq

/-! ## Merge method selection (`MergePull`, part_000 lines 265-277) -/

/-- The merge-method choice inside `GithubClient.MergePull`:
start from `"merge"`; if merge commits are not allowed, fall through to
rebase, then squash. -/
def mergeMethodOf (repo : GoRepo) : String :=
  let defaultMergeMethod := "merge"
  let rebaseMergeMethod := "rebase"
  let squashMergeMethod := "squash"
  if !repo.allowMergeCommit then
    if repo.allowRebaseMerge then rebaseMergeMethod
    else if repo.allowSquashMerge then squashMergeMethod
    else defaultMergeMethod
  else defaultMergeMethod

/-- The selector as the specification words it (§4.6): merge-commit if
allowed; else rebase if allowed; else squash if allowed; else
merge-commit as the final fallback. -/
def mergeMethodSpec (allowMergeCommit allowRebase allowSquash : Bool) : String :=
  if allowMergeCommit then "merge"
  else if allowRebase then "rebase"
  else if allowSquash then "squash"
  else "merge"

/-! ## Mergeability (`PullIsMergeable`, part_000 lines 206-226) -/

/-- `GithubClient.PullIsMergeable`: the pull-request fetch result is the
oracle input; on fetch failure the error is wrapped, otherwise the
platform mergeable state is compared against the three clickable
states. -/
def pullIsMergeable (fetch : Except ApiErr GoPullRequest) :
    Except ApiErr Bool :=
  match fetch with
  | .error e => .error (wrapErr "getting pull request" e)
  | .ok githubPR =>
    let state := githubPR.mergeableState
    if state ≠ "clean" ∧ state ≠ "unstable" ∧ state ≠ "has_hooks" then
      .ok false
    else
      .ok true

/-! ## Changed-file listing (`GetModifiedFiles`, part_000 lines 127-158)

The paginated `ListFiles` endpoint is abstracted as the ordered list of
page results the platform would deliver: element `i` is what the fetch
of page `i` returns (`resp.NextPage` points to the next element, `0`
after the last one). -/

/-- The slice of `github.CommitFile` used by `GetModifiedFiles`:
`GetFilename`, `GetPreviousFilename`, `GetStatus`. -/
structure CommitFile where
  filename : String
  previousFilename : String
  status : String
deriving Repr, DecidableEq

/-- The loop body of `GetModifiedFiles` for one file: append the
filename, and additionally the previous filename when the file was
renamed. -/
def fileEntries (f : CommitFile) : List String :=
  [f.filename] ++ (if f.status = "renamed" then [f.previousFilename] else [])

/-- The page loop of `GetModifiedFiles`, carrying the `files`
accumulator: a failed page fetch returns the files collected so far
together with the error; otherwise the page is appended and the walk
continues until no next page remains. -/
def getModifiedFilesLoop :
    List (Except ApiErr (List CommitFile)) → List String →
      List String × Option ApiErr
  | [], files => (files, none)
  | .error e :: _, files => (files, some e)
  | .ok pageFiles :: rest, files =>
      getModifiedFilesLoop rest
        (pageFiles.foldl (fun acc f => acc ++ fileEntries f) files)

/-- `GithubClient.GetModifiedFiles` over the abstracted page sequence. -/
def getModifiedFiles (pages : List (Except ApiErr (List CommitFile))) :
    List String × Option ApiErr :=
  getModifiedFilesLoop pages []

/-! ## Approval check (`PullIsApproved`, part_000 lines 179-204) -/

/-- The slice of `github.PullRequestReview` used by `PullIsApproved`:
`GetState`.  Pages deliver review pointers, so a page element is an
`Option Review` and the loop skips `none`. -/
structure Review where
  state : String
deriving Repr, DecidableEq

/-- The inner loop of `PullIsApproved` on one page: does some non-nil
review on the page have state "APPROVED"? -/
def pageHasApproved (pageReviews : List (Option Review)) : Bool :=
  pageReviews.any fun review =>
    match review with
    | some r => r.state == "APPROVED"
    | none => false

/-- The page loop of `PullIsApproved`, instrumented with the number of
page fetches performed: a failed fetch returns false with the wrapped
error; a page containing an approved review returns true immediately;
otherwise the walk continues, ending in false with no error. -/
def pullIsApprovedLoop :
    List (Except ApiErr (List (Option Review))) → Nat →
      (Bool × Option ApiErr) × Nat
  | [], fetched => ((false, none), fetched)
  | .error e :: _, fetched =>
      ((false, some (wrapErr "getting reviews" e)), fetched + 1)
  | .ok pageReviews :: rest, fetched =>
      if pageHasApproved pageReviews then ((true, none), fetched + 1)
      else pullIsApprovedLoop rest (fetched + 1)

/-- `GithubClient.PullIsApproved` over the abstracted page sequence
(the result component of the instrumented loop). -/
def pullIsApproved (pages : List (Except ApiErr (List (Option Review)))) :
    Bool × Option ApiErr :=
  (pullIsApprovedLoop pages 0).1

/-! ## Comment chunking (`CreateComment`, part_000 lines 160-177)

`CreateComment` maps oversized comment text through
`common.SplitComment` with `maxCommentLength` and the two fixed
continuation markers before posting.  Text is modelled as its character
sequence. -/

/-- `maxCommentLength`: the maximum number of chars GitHub allows in a
single comment. -/
def maxCommentLength : Nat := 65536

/-- The `sepEnd` continuation marker of `CreateComment` (trailing text
of every segment but the last). -/
def sepEndMarker : List Char :=
  ("\n```\n</details>" ++
    "\n<br>\n\n**Warning**: Output length greater than max comment size. Continued in next comment.").toList

/-- The `sepStart` continuation marker of `CreateComment` (leading text
of every segment but the first). -/
def sepStartMarker : List Char :=
  ("Continued from previous comment.\n<details><summary>Show Output</summary>\n\n" ++
    "```diff\n").toList

/-- Successive slices of at most `k` characters covering `s` in order
(empty for `k = 0`). -/
def chunksOf (k : Nat) (s : List Char) : List (List Char) :=
  if hdeg : k = 0 ∨ s = [] then []
  else s.take k :: chunksOf k (s.drop k)
termination_by s.length
decreasing_by
  push_neg at hdeg
  simp only [List.length_drop]
  have hk : 0 < k := Nat.pos_of_ne_zero hdeg.1
  have hs : 0 < s.length := List.length_pos.mpr hdeg.2
  omega

/-- Wrapping of every chunk after the first: each gets the leading
continuation marker, and all but the last also get the trailing one. -/
def wrapTail (sE sS : List Char) : List (List Char) → List (List Char)
  | [] => []
  | [c] => [sS ++ c]
  | c :: c2 :: rest => (sS ++ c ++ sE) :: wrapTail sE sS (c2 :: rest)

/-- Wrapping of a chunk list: the first chunk gets only the trailing
continuation marker (when it is not also the last). -/
def wrapChunks (sE sS : List Char) : List (List Char) → List (List Char)
  | [] => []
  | [c] => [c]
  | c :: c2 :: rest => (c ++ sE) :: wrapTail sE sS (c2 :: rest)

/-- Modelled from the spec: `common.SplitComment` is not among the shown
source files (only its caller `CreateComment` is).  Per §4.5/§8: text
that fits within the maximum is returned as a single unmodified segment;
longer text is cut into ordered chunks sized so that each rendered
segment — including its trailing continuation marker for all but the
last segment and its leading continuation marker for all but the first —
stays within the maximum.  (The spec leaves the choice of cut points to
the implementation; fixed-size cuts are used here, which §3's
reconstruction invariant does not depend on.) -/
def splitComment (comment : List Char) (maxSize : Nat)
    (sE sS : List Char) : List (List Char) :=
  if comment.length ≤ maxSize then [comment]
  else wrapChunks sE sS (chunksOf (maxSize - sE.length - sS.length) comment)

/-- Removing the leading continuation marker from a segment (spec §3:
"continuation wrapping stripped"). -/
def stripStart (sS : List Char) (seg : List Char) : List Char :=
  seg.drop sS.length

/-- Removing the trailing continuation marker from a segment. -/
def stripEnd (sE : List Char) (seg : List Char) : List Char :=
  seg.take (seg.length - sE.length)

/-- Stripping of every segment after the first: each loses its leading
marker, and all but the last also lose their trailing one. -/
def stripWrapTail (sE sS : List Char) : List (List Char) → List (List Char)
  | [] => []
  | [seg] => [stripStart sS seg]
  | seg :: seg2 :: rest =>
      stripEnd sE (stripStart sS seg) :: stripWrapTail sE sS (seg2 :: rest)

/-- Stripping of a segment list: the first segment loses only its
trailing marker (when it is not also the last). -/
def stripWrap (sE sS : List Char) : List (List Char) → List (List Char)
  | [] => []
  | [seg] => [seg]
  | seg :: seg2 :: rest => stripEnd sE seg :: stripWrapTail sE sS (seg2 :: rest)

/-- Spec §3: segments concatenated in order with the continuation
wrapping stripped. -/
def reconstruct (sE sS : List Char) (segs : List (List Char)) : List Char :=
  (stripWrap sE sS segs).flatten

/-! ## Merge (`MergePull`, part_000 lines 257-297) -/

/-- The slice of `github.PullRequestMergeResult` used by `MergePull`:
`GetMerged` and `GetMessage`. -/
structure MergeResult where
  merged : Bool
  message : String
deriving Repr, DecidableEq

/-- `GithubClient.MergePull`: the repository fetch and the merge API
call are oracle inputs (the latter a function of the merge method sent).
Returns the Go function's `error` result (`none` = nil). -/
def mergePull (repoFetch : Except ApiErr GoRepo)
    (mergeCall : String → Except ApiErr MergeResult) : Option ApiErr :=
  match repoFetch with
  | .error e => some (wrapErr "fetching repo info" e)
  | .ok repo =>
    let method := mergeMethodOf repo
    match mergeCall method with
    | .error e => some (wrapErr "merging pull request" e)
    | .ok mergeResult =>
      if !mergeResult.merged then
        some ("could not merge pull request: " ++ mergeResult.message)
      else none

end Atlantis

namespace Atlantis

/-- Folding the per-file appends of one page equals appending the page's
flattened entries. -/
theorem foldl_fileEntries (fs : List CommitFile) (acc : List String) :
    fs.foldl (fun acc f => acc ++ fileEntries f) acc =
      acc ++ fs.flatMap fileEntries := by
  induction fs generalizing acc with
  | nil => simp
  | cons f fs ih => simp [List.foldl_cons, ih, List.append_assoc]

/-- The files-loop on successful pages accumulates every page's entries
in order. -/
theorem getModifiedFilesLoop_ok (pages : List (List CommitFile))
    (acc : List String) :
    getModifiedFilesLoop (pages.map .ok) acc =
      (acc ++ pages.flatMap (fun page => page.flatMap fileEntries), none) := by
  induction pages generalizing acc with
  | nil => simp [getModifiedFilesLoop]
  | cons page pages ih =>
      simp [getModifiedFilesLoop, foldl_fileEntries, ih, List.append_assoc]

/-- The files-loop stops at the first failing page, keeping what was
collected before it. -/
theorem getModifiedFilesLoop_error (pages : List (List CommitFile))
    (e : ApiErr) (rest : List (Except ApiErr (List CommitFile)))
    (acc : List String) :
    getModifiedFilesLoop (pages.map .ok ++ .error e :: rest) acc =
      (acc ++ pages.flatMap (fun page => page.flatMap fileEntries), some e) := by
  induction pages generalizing acc with
  | nil => simp [getModifiedFilesLoop]
  | cons page pages ih =>
      simp [getModifiedFilesLoop, foldl_fileEntries, ih, List.append_assoc]

/-- C5: If any page fetch fails, `GetModifiedFiles` returns the error
together with the file names already collected from all pages fetched
before the failure. -/
theorem getModifiedFiles_partial_on_error (pages : List (List CommitFile))
    (e : ApiErr) (rest : List (Except ApiErr (List CommitFile))) :
    getModifiedFiles (pages.map .ok ++ .error e :: rest) =
      (pages.flatMap (fun page => page.flatMap fileEntries), some e) := by
  simpa [getModifiedFiles] using getModifiedFilesLoop_error pages e rest []

/-- C7: `GetModifiedFiles` returns the changed file paths in platform
page order, without deduplication, and a file with status "renamed"
contributes both its new and its previous filename. -/
theorem getModifiedFiles_order_and_renames (pages : List (List CommitFile)) :
    getModifiedFiles (pages.map .ok) =
      (pages.flatMap (fun page => page.flatMap (fun f =>
        if f.status = "renamed" then [f.filename, f.previousFilename]
        else [f.filename])), none) := by
  have hentries : ∀ f : CommitFile, fileEntries f =
      if f.status = "renamed" then [f.filename, f.previousFilename]
      else [f.filename] := by
    intro f
    by_cases h : f.status = "renamed" <;> simp [fileEntries, h]
  simpa [getModifiedFiles, funext hentries] using getModifiedFilesLoop_ok pages []

/-- C6: `PullIsApproved` returns true as soon as some page contains an
APPROVED review, fetching exactly the pages up to that one and none
after it (whatever the later pages hold); if no page across the full
walk contains one, it returns false with no error after fetching every
page. -/
theorem pullIsApproved_shortcircuit :
    (∀ (good : List (List (Option Review))) (page : List (Option Review))
        (rest : List (Except ApiErr (List (Option Review)))),
      (∀ p ∈ good, pageHasApproved p = false) → pageHasApproved page = true →
      pullIsApprovedLoop (good.map .ok ++ .ok page :: rest) 0 =
        ((true, none), good.length + 1)) ∧
    (∀ pages : List (List (Option Review)),
      (∀ p ∈ pages, pageHasApproved p = false) →
      pullIsApprovedLoop (pages.map .ok) 0 = ((false, none), pages.length)) := by
  have key : ∀ (good : List (List (Option Review)))
      (tail : List (Except ApiErr (List (Option Review)))) (n : Nat),
      (∀ p ∈ good, pageHasApproved p = false) →
      pullIsApprovedLoop (good.map .ok ++ tail) n =
        pullIsApprovedLoop tail (n + good.length) := by
    intro good
    induction good with
    | nil => intro tail n _; simp
    | cons p good ih =>
        intro tail n h
        have hp : pageHasApproved p = false := h p (List.mem_cons_self p good)
        have step : pullIsApprovedLoop ((p :: good).map .ok ++ tail) n =
            pullIsApprovedLoop (good.map .ok ++ tail) (n + 1) := by
          simp [pullIsApprovedLoop, hp]
        rw [step, ih tail (n + 1) (fun q hq => h q (List.mem_cons_of_mem p hq))]
        have harith : n + 1 + good.length = n + (p :: good).length := by
          simp
          omega
        rw [harith]
  constructor
  · intro good page rest hgood hpage
    rw [key good (.ok page :: rest) 0 hgood]
    simp [pullIsApprovedLoop, hpage]
  · intro pages hpages
    have := key pages [] 0 hpages
    simpa [pullIsApprovedLoop] using this

/-- Witness for C6: with one approval-free page, then a page holding an
APPROVED review, then a failing page, the walk stops after two fetches
with result true; and a two-page approval-free walk yields false. -/
theorem pullIsApproved_shortcircuit_witness :
    pullIsApprovedLoop
        [.ok [none], .ok [some ⟨"APPROVED"⟩], .error "boom"] 0 =
      ((true, none), 2) ∧
    pullIsApprovedLoop [.ok [some ⟨"CHANGES_REQUESTED"⟩], .ok []] 0 =
      ((false, none), 2) := by
  refine ⟨?_, ?_⟩
  · simpa using pullIsApproved_shortcircuit.1 [[none]] [some ⟨"APPROVED"⟩] [.error "boom"] (by decide) (by decide)
  · simpa using pullIsApproved_shortcircuit.2 [[some ⟨"CHANGES_REQUESTED"⟩], []] (by decide)

/-- A successful digit loop means every character was a digit and the
result is the left fold of the digit values. -/
theorem parseUintLoop_ok_imp (maxVal : Nat) (ds : List Char) :
    ∀ a n : Nat, parseUintLoop maxVal ds a = .ok n →
      ds.all Char.isDigit = true ∧
      n = ds.foldl (fun acc c => acc * 10 + (c.toNat - '0'.toNat)) a := by
  induction ds with
  | nil =>
    intro a n h
    rw [parseUintLoop] at h
    simp [Except.ok.inj h]
  | cons c rest ih =>
    intro a n h
    by_cases hdig : c.isDigit
    · rw [parseUintLoop, if_pos hdig] at h
      by_cases hr : maxVal < a * 10 + (c.toNat - '0'.toNat)
      · rw [if_pos hr] at h; exact absurd h (by simp)
      · rw [if_neg hr] at h
        obtain ⟨hall, hfold⟩ := ih (a * 10 + (c.toNat - '0'.toNat)) n h
        refine ⟨?_, ?_⟩
        · simp [List.all_cons, hdig, hall]
        · rw [List.foldl_cons]; exact hfold
    · rw [parseUintLoop, if_neg hdig] at h
      exact absurd h (by simp)

/-- A successful `ParseUint` means nonempty all-digit input whose value
is the digit fold from 0. -/
theorem parseUint_ok_imp (ds : List Char) (maxVal n : Nat)
    (h : parseUint ds maxVal = .ok n) :
    ds ≠ [] ∧ ds.all Char.isDigit = true ∧
      n = ds.foldl (fun acc c => acc * 10 + (c.toNat - '0'.toNat)) 0 := by
  unfold parseUint at h
  by_cases hds : ds = []
  · rw [if_pos hds] at h; exact absurd h (by simp)
  · rw [if_neg hds] at h
    obtain ⟨h1, h2⟩ := parseUintLoop_ok_imp maxVal ds 0 n h
    exact ⟨hds, h1, h2⟩

/-- A value accepted by `parseInt64` is exactly the literal's denoted
value: the embedded parser is sound for the spec's base-10 int64
grammar. -/
theorem parseInt64_ok_imp (s : List Char) (n : Int)
    (h : parseInt64 s = .ok n) : int64LiteralValue s = some n := by
  unfold parseInt64 at h
  by_cases hs : s = []
  · rw [if_pos hs] at h; exact absurd h (by simp)
  · rw [if_neg hs] at h
    cases hu : parseUint (signSplit s).2 18446744073709551615 with
    | error e => rw [hu] at h; simp at h
    | ok un =>
      rw [hu] at h
      simp only at h
      obtain ⟨hne, hall, hv⟩ := parseUint_ok_imp _ _ _ hu
      unfold int64LiteralValue
      rw [if_neg hne, if_pos hall, ← hv]
      split at h
      · exact absurd h (by simp)
      · split at h
        · exact absurd h (by simp)
        · rename_i hc1 hc2
          have hn := Except.ok.inj h
          cases hsgn : (signSplit s).1 with
          | false =>
            rw [hsgn] at hn hc1
            rw [if_neg (by simp)] at hn
            have hcut : ¬ 9223372036854775808 ≤ un := fun hx => hc1 ⟨rfl, hx⟩
            have h1 : (un : Int) < 9223372036854775808 := by
              exact_mod_cast Nat.not_le.mp hcut
            have h2 : (0 : Int) ≤ (un : Int) := Int.natCast_nonneg un
            show (if -9223372036854775808 ≤ (un : Int) ∧
                (un : Int) ≤ 9223372036854775807 then
                  some ((un : Int)) else none) = some n
            rw [if_pos ⟨by omega, by omega⟩]
            exact congrArg some hn
          | true =>
            rw [hsgn] at hn hc2
            rw [if_pos rfl] at hn
            have hcut : ¬ 9223372036854775808 < un := fun hx => hc2 ⟨rfl, hx⟩
            have h1 : (un : Int) ≤ 9223372036854775808 := by
              exact_mod_cast Nat.not_lt.mp hcut
            have h2 : (0 : Int) ≤ (un : Int) := Int.natCast_nonneg un
            show (if -9223372036854775808 ≤ -(un : Int) ∧
                -(un : Int) ≤ 9223372036854775807 then
                  some (-(un : Int)) else none) = some n
            rw [if_pos ⟨by omega, by omega⟩]
            exact congrArg some hn

/-- C9: Installation resolution parses the textual id of the identity
response as a base-10 integer: id "12345" resolves to the integer
installation id 12345, and any id string that does not denote a base-10
int64 makes resolution fail with the parse `AuthError`. -/
theorem getInstallationID_parses :
    getInstallationID (.ok ()) (.ok ()) (.ok "12345") = .ok 12345 ∧
    ∀ s : String, int64LiteralValue s.toList = none →
      ∃ e : ParseIntError,
        getInstallationID (.ok ()) (.ok ()) (.ok s) = .error (.idParse e) := by
  refine ⟨by rfl, ?_⟩
  intro s hnone
  cases hp : parseInt64 s.toList with
  | error e =>
    refine ⟨e, ?_⟩
    have hp' : parseInt64 s.data = .error e := hp
    simp [getInstallationID, hp']
  | ok n =>
    have hnone' : int64LiteralValue s.data = none := hnone
    exact absurd (parseInt64_ok_imp s.toList n hp) (by simp [hnone'])

/-- Witness for C9: the non-numeric id "not-a-number" is rejected by the
grammar and resolution fails with the parse error. -/
theorem getInstallationID_parses_witness :
    int64LiteralValue "not-a-number".toList = none ∧
    ∃ e : ParseIntError,
      getInstallationID (.ok ()) (.ok ()) (.ok "not-a-number") =
        .error (.idParse e) :=
  ⟨by decide, getInstallationID_parses.2 "not-a-number" (by decide)⟩

/-- C1 (no-panic claim, checked on both in-repo variants at the concrete
failing input where loading the private key fails): the part_000
`GithubAppCredentials.Client` turns the resolution failure into a panic,
aborting the process, while the `github_credentials.go` variant returns
the same failure to the caller as a normal result. -/
theorem appCredentialsClient_panic_vs_error :
    appCredentialsClientPanicking
        (Except.error "could not read private key: open key.pem: no such file or directory")
        (.ok ()) (.ok "12345") (fun _ => Except.ok ()) =
      .panicked (.appTransportInit
        "could not read private key: open key.pem: no such file or directory") ∧
    appCredentialsClient
        (Except.error "could not read private key: open key.pem: no such file or directory")
        (.ok ()) (.ok "12345") (fun _ => Except.ok ()) =
      .error (.appTransportInit
        "could not read private key: open key.pem: no such file or directory") :=
  ⟨rfl, rfl⟩

/-- C10: With setup not complete and the "code" query parameter absent
(empty), `ExchangeCode` writes the "Ignoring callback" response but does
not return: it continues, attempts the exchange with the empty code
string (URL `/app-manifests//conversions`), and writes a second response
to the same request — two responses in total, for every behaviour of the
request construction and the exchange call. -/
theorem exchangeCode_missing_code_double_response
    (newRequest : String → Except ApiErr Unit)
    (doCall : String → Except ApiErr (Nat × AppCreds)) :
    exchangeCode false "" newRequest doCall =
      [ControllerResponse.ignoringCallback,
        exchangeAttempt "/app-manifests//conversions" newRequest doCall] ∧
    (exchangeCode false "" newRequest doCall).length = 2 := by
  constructor
  · show exchangeCode false "" newRequest doCall = _
    unfold exchangeCode
    rw [if_neg (by simp), if_pos rfl]
    rfl
  · unfold exchangeCode
    rw [if_neg (by simp), if_pos rfl]
    rfl

/-- Chunks concatenate back to the original character sequence. -/
theorem chunksOf_flatten (k : Nat) (hk : 0 < k) (s : List Char) :
    (chunksOf k s).flatten = s := by
  by_cases hs : s = []
  · simp [hs, chunksOf]
  · rw [chunksOf, dif_neg (by push_neg; exact ⟨hk.ne', hs⟩)]
    rw [List.flatten_cons, chunksOf_flatten k hk (s.drop k)]
    exact List.take_append_drop k s
termination_by s.length
decreasing_by
  simp only [List.length_drop]
  have hs' : 0 < s.length := List.length_pos.mpr hs
  omega

/-- Every chunk holds at most `k` characters. -/
theorem chunksOf_length_le (k : Nat) (s : List Char) :
    ∀ c ∈ chunksOf k s, c.length ≤ k := by
  intro c hc
  by_cases hdeg : k = 0 ∨ s = []
  · rw [chunksOf, dif_pos hdeg] at hc
    exact absurd hc (List.not_mem_nil c)
  · rw [chunksOf, dif_neg hdeg] at hc
    rcases List.mem_cons.mp hc with rfl | h
    · simp [List.length_take]
    · exact chunksOf_length_le k (s.drop k) c h
termination_by s.length
decreasing_by
  push_neg at hdeg
  simp only [List.length_drop]
  have := List.length_pos.mpr hdeg.2
  omega

/-- Removing a leading marker undoes prepending it. -/
theorem stripStart_append (sS c : List Char) : stripStart sS (sS ++ c) = c := by
  simp [stripStart, List.drop_left]

/-- Removing a trailing marker undoes appending it. -/
theorem stripEnd_append (sE c : List Char) : stripEnd sE (c ++ sE) = c := by
  unfold stripEnd
  rw [List.length_append, Nat.add_sub_cancel]
  exact List.take_left c sE

/-- Stripping inverts wrapping on the non-first segments. -/
theorem stripWrapTail_wrapTail (sE sS : List Char) (cs : List (List Char)) :
    stripWrapTail sE sS (wrapTail sE sS cs) = cs := by
  induction cs with
  | nil => rfl
  | cons c rest ih =>
    cases rest with
    | nil => simp [wrapTail, stripWrapTail, stripStart_append]
    | cons c2 rest2 =>
      obtain ⟨w, ws, hw⟩ : ∃ w ws, wrapTail sE sS (c2 :: rest2) = w :: ws := by
        cases rest2 <;> exact ⟨_, _, rfl⟩
      simp only [wrapTail, hw, stripWrapTail]
      rw [← hw, ih]
      congr 1
      rw [List.append_assoc, stripStart_append, stripEnd_append]

/-- Stripping inverts wrapping on a whole chunk list. -/
theorem stripWrap_wrapChunks (sE sS : List Char) (cs : List (List Char)) :
    stripWrap sE sS (wrapChunks sE sS cs) = cs := by
  cases cs with
  | nil => rfl
  | cons c rest =>
    cases rest with
    | nil => rfl
    | cons c2 rest2 =>
      obtain ⟨w, ws, hw⟩ : ∃ w ws, wrapTail sE sS (c2 :: rest2) = w :: ws := by
        cases rest2 <;> exact ⟨_, _, rfl⟩
      simp only [wrapChunks, hw, stripWrap]
      rw [← hw, stripWrapTail_wrapTail]
      congr 1
      exact stripEnd_append sE c

/-- Rendered length bound for the non-first segments. -/
theorem wrapTail_length_le (sE sS : List Char) (k : Nat) :
    ∀ cs : List (List Char), (∀ c ∈ cs, c.length ≤ k) →
      ∀ seg ∈ wrapTail sE sS cs, seg.length ≤ sS.length + k + sE.length := by
  intro cs
  induction cs with
  | nil => intro _ seg hseg; simp [wrapTail] at hseg
  | cons c rest ih =>
    intro hcs seg hseg
    cases rest with
    | nil =>
      simp only [wrapTail, List.mem_singleton] at hseg
      subst hseg
      have hc := hcs c (List.mem_cons_self c [])
      simp only [List.length_append]
      omega
    | cons c2 rest2 =>
      simp only [wrapTail, List.mem_cons] at hseg
      rcases hseg with rfl | h
      · have hc := hcs c (List.mem_cons_self c (c2 :: rest2))
        simp only [List.length_append]
        omega
      · exact ih (fun x hx => hcs x (List.mem_cons_of_mem c hx)) seg h

/-- Rendered length bound for every segment of a wrapped chunk list. -/
theorem wrapChunks_length_le (sE sS : List Char) (k : Nat)
    (cs : List (List Char)) (hcs : ∀ c ∈ cs, c.length ≤ k) :
    ∀ seg ∈ wrapChunks sE sS cs, seg.length ≤ sS.length + k + sE.length := by
  cases cs with
  | nil => intro seg hseg; simp [wrapChunks] at hseg
  | cons c rest =>
    intro seg hseg
    cases rest with
    | nil =>
      simp only [wrapChunks, List.mem_singleton] at hseg
      subst hseg
      have hc := hcs seg (List.mem_cons_self seg [])
      omega
    | cons c2 rest2 =>
      simp only [wrapChunks, List.mem_cons] at hseg
      rcases hseg with rfl | h
      · have hc := hcs c (List.mem_cons_self c (c2 :: rest2))
        simp only [List.length_append]
        omega
      · exact wrapTail_length_le sE sS k (c2 :: rest2)
          (fun x hx => hcs x (List.mem_cons_of_mem c hx)) seg h

/-- `SplitComment` correctness for any marker pair that leaves room
inside the maximum: segments reconstruct the input exactly and each
rendered segment stays within the maximum. -/
theorem splitComment_correct (comment : List Char) (maxSize : Nat)
    (sE sS : List Char) (hsep : sE.length + sS.length < maxSize) :
    reconstruct sE sS (splitComment comment maxSize sE sS) = comment ∧
    ∀ seg ∈ splitComment comment maxSize sE sS, seg.length ≤ maxSize := by
  unfold splitComment
  by_cases hfit : comment.length ≤ maxSize
  · rw [if_pos hfit]
    refine ⟨by simp [reconstruct, stripWrap], ?_⟩
    intro seg hseg
    rw [List.mem_singleton] at hseg
    subst hseg
    exact hfit
  · rw [if_neg hfit]
    have hk : 0 < maxSize - sE.length - sS.length := by omega
    constructor
    · rw [reconstruct, stripWrap_wrapChunks, chunksOf_flatten _ hk]
    · intro seg hseg
      have hb := wrapChunks_length_le sE sS (maxSize - sE.length - sS.length) _
        (chunksOf_length_le _ comment) seg hseg
      omega

/-- C2: For every comment text, the segments produced by the chunker
with maximum 65536 and the fixed continuation markers of
`CreateComment`, concatenated in order after stripping the continuation
wrapping, reconstruct the original text exactly; and every emitted
segment's rendered length, wrapping included, is at most 65536. -/
theorem createComment_segments (comment : List Char) :
    reconstruct sepEndMarker sepStartMarker
        (splitComment comment maxCommentLength sepEndMarker sepStartMarker) =
      comment ∧
    ∀ seg ∈ splitComment comment maxCommentLength sepEndMarker sepStartMarker,
      seg.length ≤ maxCommentLength :=
  splitComment_correct comment maxCommentLength sepEndMarker sepStartMarker
    (by decide)

/-- Witness for C2: the short comment "hello" is its own single
segment, and its rendered length is within the maximum. -/
theorem createComment_segments_witness :
    ("hello".toList ∈
      splitComment "hello".toList maxCommentLength sepEndMarker sepStartMarker) ∧
    "hello".toList.length ≤ maxCommentLength :=
  ⟨by decide, (createComment_segments "hello".toList).2 "hello".toList (by decide)⟩

/-- C8: `MergePull` fails with the wrapped API error when the merge call
itself errors, fails with the distinct "could not merge pull request"
condition — preserving the platform's message — when the call succeeds
but the platform reports the merge was not performed, succeeds exactly
when the platform reports the pull request as merged, and the two
failure shapes can never coincide. -/
theorem mergePull_outcomes (repo : GoRepo)
    (call : String → Except ApiErr MergeResult) :
    (∀ e, call (mergeMethodOf repo) = .error e →
      mergePull (.ok repo) call = some (wrapErr "merging pull request" e)) ∧
    (∀ r, call (mergeMethodOf repo) = .ok r → r.merged = false →
      mergePull (.ok repo) call =
        some ("could not merge pull request: " ++ r.message)) ∧
    (mergePull (.ok repo) call = none ↔
      ∃ r, call (mergeMethodOf repo) = .ok r ∧ r.merged = true) ∧
    (∀ e msg, wrapErr "merging pull request" e ≠
      "could not merge pull request: " ++ msg) := by
  refine ⟨?_, ?_, ?_, ?_⟩
  · intro e he
    simp [mergePull, he]
  · intro r hr hm
    simp [mergePull, hr, hm]
  · constructor
    · intro h
      rcases hc : call (mergeMethodOf repo) with e | r
      · simp [mergePull, hc] at h
      · refine ⟨r, rfl, ?_⟩
        by_contra hm
        rw [Bool.not_eq_true] at hm
        simp [mergePull, hc, hm] at h
    · rintro ⟨r, hr, hm⟩
      simp [mergePull, hr, hm]
  · intro e msg h
    have hd := congrArg String.data h
    simp [wrapErr, String.data_append] at hd

/-- Witness for C8 at concrete inputs: with merge commits allowed, a
failing call yields the wrapped API error; a successful call reporting
`merged = false` with message "Pull Request is not mergeable" yields the
rejection error carrying that message; a call reporting `merged = true`
yields success. -/
theorem mergePull_outcomes_witness :
    mergePull (.ok ⟨true, true, true⟩) (fun _ => .error "timeout") =
      some "merging pull request: timeout" ∧
    mergePull (.ok ⟨true, true, true⟩)
        (fun _ => .ok ⟨false, "Pull Request is not mergeable"⟩) =
      some "could not merge pull request: Pull Request is not mergeable" ∧
    mergePull (.ok ⟨true, true, true⟩) (fun _ => .ok ⟨true, ""⟩) = none := by
  refine ⟨?_, ?_, ?_⟩
  · exact (mergePull_outcomes ⟨true, true, true⟩ (fun _ => .error "timeout")).1 "timeout" rfl
  · exact (mergePull_outcomes ⟨true, true, true⟩ (fun _ => .ok ⟨false, "Pull Request is not mergeable"⟩)).2.1 ⟨false, "Pull Request is not mergeable"⟩ rfl rfl
  · exact (mergePull_outcomes ⟨true, true, true⟩ (fun _ => .ok ⟨true, ""⟩)).2.2.1.mpr ⟨⟨true, ""⟩, rfl, rfl⟩

/-- C3: For every combination of the repository allow-flags, the merge
method chosen before merging is: merge-commit when allow-merge-commit is
true; otherwise rebase when allow-rebase is true; otherwise squash when
allow-squash is true; otherwise merge-commit as the final fallback. -/
theorem mergeMethodOf_eq_spec (repo : GoRepo) :
    mergeMethodOf repo =
      mergeMethodSpec repo.allowMergeCommit repo.allowRebaseMerge
        repo.allowSquashMerge := by
  cases repo with
  | mk m r s => cases m <;> cases r <;> cases s <;> rfl

/-- C4: Given the pull-request fetch succeeds, `PullIsMergeable` returns
true exactly when the platform mergeable state is one of "clean",
"unstable" or "has_hooks", and returns false with no error for every
other state string. -/
theorem pullIsMergeable_ok (pr : GoPullRequest) :
    (pullIsMergeable (.ok pr) = .ok true ↔
      pr.mergeableState = "clean" ∨ pr.mergeableState = "unstable" ∨
        pr.mergeableState = "has_hooks") ∧
    (pr.mergeableState ≠ "clean" → pr.mergeableState ≠ "unstable" →
      pr.mergeableState ≠ "has_hooks" →
      pullIsMergeable (.ok pr) = .ok false) := by
  constructor
  · constructor
    · intro h
      by_contra hc
      push_neg at hc
      simp only [pullIsMergeable, ne_eq] at h
      rw [if_pos ⟨hc.1, hc.2.1, hc.2.2⟩] at h
      exact Bool.false_ne_true (Except.ok.inj h)
    · intro h
      simp only [pullIsMergeable, ne_eq]
      rw [if_neg]
      intro hc
      rcases h with h | h | h
      · exact hc.1 h
      · exact hc.2.1 h
      · exact hc.2.2 h
  · intro h1 h2 h3
    simp only [pullIsMergeable, ne_eq]
    rw [if_pos ⟨h1, h2, h3⟩]

/-- Witness for C4 at concrete states: "unstable" is mergeable and
"dirty" is not. -/
theorem pullIsMergeable_ok_witness :
    pullIsMergeable (.ok ⟨"unstable"⟩) = .ok true ∧
    pullIsMergeable (.ok ⟨"dirty"⟩) = .ok false :=
  ⟨(pullIsMergeable_ok ⟨"unstable"⟩).1.mpr (Or.inr (Or.inl rfl)),
   (pullIsMergeable_ok ⟨"dirty"⟩).2 (by decide) (by decide) (by decide)⟩

end Atlantis
